import Mathlib

/-!
# Verification of the go-ruby-redis-ring shard routers

Shallow embedding of the two Go ring-router implementations of this
repository:

* `rubyHashRing` (cmd/go-ring-custom/main.go): the Ruby-compatible port,
  with its hand-written `binarySearch` and an `if idx < 0` wrap;
* `rubyStyleHash` (the go-redis `ConsistentHash` override), whose `Get`
  uses `sort.Search` (a lower-bound search) and an `if idx == len` wrap.

Byte strings are modelled as `List Nat` (each entry a byte value),
machine 32-bit integers as `Nat` reduced modulo `2 ^ 32` where overflow
can occur, and Go maps as functions `Nat → Option _` built by repeated
update (so a later insertion of the same key overwrites the earlier one).
-/

set_option maxRecDepth 8000000

namespace RingRouter

/-- Rotate a 32-bit value left by `s` bits (for `0 < s < 32`, values `< 2 ^ 32`). -/
def rotl32 (x s : Nat) : Nat :=
  ((x <<< s) % 4294967296) ||| (x >>> (32 - s))

/-- Little-endian byte encoding of `x` in `n` bytes. -/
def leBytes (n x : Nat) : List Nat :=
  (List.range n).map (fun i => x / 256 ^ i % 256)

/-- Big-endian 32-bit integer read from the first four entries of a byte
list, as Go's `binary.BigEndian.Uint32`. -/
def beUint32 (bs : List Nat) : Nat :=
  (bs.getD 0 0 <<< 24) ||| (bs.getD 1 0 <<< 16) ||| (bs.getD 2 0 <<< 8) ||| bs.getD 3 0

/-- Decimal digit expansion with explicit fuel (structural recursion so
that the kernel can evaluate it; `fuel ≥ 1 + digit count` suffices). -/
def asciiDecAux (fuel n : Nat) : List Nat :=
  match fuel with
  | 0 => []
  | fuel + 1 =>
    if n < 10 then [48 + n]
    else asciiDecAux fuel (n / 10) ++ [48 + n % 10]

/-- ASCII decimal digits of `n`: the bytes `fmt.Sprintf("%d", n)` produces
for a nonnegative integer. -/
def asciiDec (n : Nat) : List Nat :=
  asciiDecAux (n + 1) n

/-! ## CRC-32 (IEEE polynomial), as Go's `crc32.ChecksumIEEE` -/

/-- One bit step of the reflected CRC-32 with polynomial `0xEDB88320`. -/
def crc32Round (c : Nat) : Nat :=
  if c % 2 = 1 then (c / 2) ^^^ 0xEDB88320 else c / 2

/-- Feed one byte into the CRC-32 state. -/
def crc32Byte (c b : Nat) : Nat :=
  crc32Round (crc32Round (crc32Round (crc32Round
    (crc32Round (crc32Round (crc32Round (crc32Round (c ^^^ b % 256))))))))

/-- CRC-32 (IEEE) of a byte sequence: initial state `0xFFFFFFFF`,
final complement, as `crc32.ChecksumIEEE` in `hash/crc32`. -/
def crc32 (data : List Nat) : Nat :=
  (data.foldl crc32Byte 0xFFFFFFFF) ^^^ 0xFFFFFFFF

/-! ## MD5 (RFC 1321), as Go's `crypto/md5` -/

/-- MD5 round constants `K[i] = floor(2^32 * abs(sin(i + 1)))`. -/
def md5K : List Nat :=
  [3614090360, 3905402710, 606105819, 3250441966, 4118548399, 1200080426,
   2821735955, 4249261313, 1770035416, 2336552879, 4294925233, 2304563134,
   1804603682, 4254626195, 2792965006, 1236535329, 4129170786, 3225465664,
   643717713, 3921069994, 3593408605, 38016083, 3634488961, 3889429448,
   568446438, 3275163606, 4107603335, 1163531501, 2850285829, 4243563512,
   1735328473, 2368359562, 4294588738, 2272392833, 1839030562, 4259657740,
   2763975236, 1272893353, 4139469664, 3200236656, 681279174, 3936430074,
   3572445317, 76029189, 3654602809, 3873151461, 530742520, 3299628645,
   4096336452, 1126891415, 2878612391, 4237533241, 1700485571, 2399980690,
   4293915773, 2240044497, 1873313359, 4264355552, 2734768916, 1309151649,
   4149444226, 3174756917, 718787259, 3951481745]

/-- MD5 per-round left-rotation amounts. -/
def md5S : List Nat :=
  [7, 12, 17, 22, 7, 12, 17, 22, 7, 12, 17, 22, 7, 12, 17, 22,
   5, 9, 14, 20, 5, 9, 14, 20, 5, 9, 14, 20, 5, 9, 14, 20,
   4, 11, 16, 23, 4, 11, 16, 23, 4, 11, 16, 23, 4, 11, 16, 23,
   6, 10, 15, 21, 6, 10, 15, 21, 6, 10, 15, 21, 6, 10, 15, 21]

/-- MD5 round function: `F`, `G`, `H`, `I` depending on the round index. -/
def md5F (i b c d : Nat) : Nat :=
  if i < 16 then (b &&& c) ||| ((b ^^^ 4294967295) &&& d)
  else if i < 32 then (d &&& b) ||| ((d ^^^ 4294967295) &&& c)
  else if i < 48 then b ^^^ c ^^^ d
  else c ^^^ (b ||| (d ^^^ 4294967295))

/-- MD5 message-word schedule. -/
def md5G (i : Nat) : Nat :=
  if i < 16 then i
  else if i < 32 then (5 * i + 1) % 16
  else if i < 48 then (3 * i + 5) % 16
  else 7 * i % 16

/-- Little-endian 32-bit word `g` of a 64-byte block. -/
def md5Word (block : List Nat) (g : Nat) : Nat :=
  block.getD (4 * g) 0 + 256 * block.getD (4 * g + 1) 0 +
    65536 * block.getD (4 * g + 2) 0 + 16777216 * block.getD (4 * g + 3) 0

/-- One of the 64 MD5 rounds on the state `(a, b, c, d)`. -/
def md5Step (block : List Nat) (st : Nat × Nat × Nat × Nat) (i : Nat) :
    Nat × Nat × Nat × Nat :=
  let (a, b, c, d) := st
  let f := (md5F i b c d + a + md5K.getD i 0 + md5Word block (md5G i)) % 4294967296
  (d, (b + rotl32 f (md5S.getD i 0)) % 4294967296, b, c)

/-- MD5 compression of one 64-byte block. -/
def md5Compress (st : Nat × Nat × Nat × Nat) (block : List Nat) :
    Nat × Nat × Nat × Nat :=
  let (a, b, c, d) := (List.range 64).foldl (md5Step block) st
  ((st.1 + a) % 4294967296, (st.2.1 + b) % 4294967296,
   (st.2.2.1 + c) % 4294967296, (st.2.2.2 + d) % 4294967296)

/-- Stream one byte into a `(state, partial block)` pair, compressing
whenever a full 64-byte block has accumulated. -/
def md5Absorb (acc : (Nat × Nat × Nat × Nat) × List Nat) (b : Nat) :
    (Nat × Nat × Nat × Nat) × List Nat :=
  let buf := acc.2 ++ [b]
  if buf.length = 64 then (md5Compress acc.1 buf, []) else (acc.1, buf)

/-- Fold the MD5 compression over the successive 64-byte blocks of a
(padded) message whose length is a multiple of 64. -/
def md5Blocks (st : Nat × Nat × Nat × Nat) (msg : List Nat) :
    Nat × Nat × Nat × Nat :=
  (msg.foldl md5Absorb (st, [])).1

/-- MD5 padding: append `0x80`, zeros to 56 mod 64, then the bit length
as a little-endian 64-bit integer. -/
def md5Pad (msg : List Nat) : List Nat :=
  let l := msg.length
  msg ++ 128 :: (List.replicate ((64 + 55 - l % 64) % 64) 0 ++ leBytes 8 (l * 8 % 2 ^ 64))

/-- The 16-byte MD5 digest of a byte sequence, as Go's `md5.Sum`. -/
def md5Bytes (msg : List Nat) : List Nat :=
  let st := md5Blocks (1732584193, 4023233417, 2562383102, 271733878) (md5Pad msg)
  leBytes 4 st.1 ++ leBytes 4 st.2.1 ++ leBytes 4 st.2.2.1 ++ leBytes 4 st.2.2.2

/-- The `serverHashFor` helper from both Go files: the big-endian 32-bit integer
formed by the first four bytes of the MD5 digest. -/
def serverHashFor (key : List Nat) : Nat :=
  beUint32 ((md5Bytes key).take 4)

/-! ## The shared binary-search loop shape

Both Go lookups run the same loop: `for lo < hi { mid := (lo+hi)/2;
if P(mid) { hi = mid } else { lo = mid+1 } }; return lo`.  In
`rubyHashRing.binarySearch` the predicate is `sortedKeys[mid] > value`
(and the loop result minus one is returned); in `sort.Search` as used by
`rubyStyleHash.Get` it is `sortedKeys[mid] >= hash`.  The loop is written
with explicit fuel so that it is structurally recursive; any
`fuel > hi - lo` gives the loop's exact behaviour. -/

def goSearchLoop (fuel : Nat) (f : Nat → Bool) (lo hi : Nat) : Nat :=
  match fuel with
  | 0 => lo
  | fuel + 1 =>
    if lo < hi then
      if f ((lo + hi) / 2) then goSearchLoop fuel f lo ((lo + hi) / 2)
      else goSearchLoop fuel f ((lo + hi) / 2 + 1) hi
    else lo

/-- Go's `sort.Search(n, f)`. -/
def sortSearch (n : Nat) (f : Nat → Bool) : Nat :=
  goSearchLoop (n + 1) f 0 n

/-! ## The Ruby-compatible ring (`rubyHashRing`, cmd/go-ring-custom) -/

/-- The virtual key hashed for a node name and replica index:
`fmt.Sprintf("%s:%d", name, i)` (58 is the byte of the colon). -/
def mkVirtualKey (name : List Nat) (i : Nat) : List Nat :=
  name ++ 58 :: asciiDec i

/-- Go map assignment `m[k] = v`: a later insertion of the same key
overwrites the earlier one. -/
def updMap {α : Type} (m : Nat → Option α) (k : Nat) (v : α) : Nat → Option α :=
  fun x => if x = k then some v else m x

/-- The `(point, node index)` pairs inserted by `newRubyHashRing`'s nested
loops, in insertion order: nodes in input order (numbered from `j`),
replica indices `0 ≤ i < R` inside. -/
def ringInsertsAux (configs : List (List Nat)) (j R : Nat) : List (Nat × Nat) :=
  match configs with
  | [] => []
  | name :: rest =>
    (List.range R).map (fun i => (serverHashFor (mkVirtualKey name i), j)) ++
      ringInsertsAux rest (j + 1) R

/-- All `(point, node index)` insertions of `newRubyHashRing`. -/
def ringInserts (configs : List (List Nat)) (R : Nat) : List (Nat × Nat) :=
  ringInsertsAux configs 0 R

/-- Ascending sort of the collected points (`sort.Slice` with `<`; on
`Nat` values the sorted list is determined by the multiset, so a stable
insertion sort is an exact model). -/
def sortKeys (l : List Nat) : List Nat :=
  List.insertionSort (· ≤ ·) l

/-- The `rubyHashRing` value: replica count, ascending point list, the
point → node lookup table, and the node (names) in input order.
Nodes are identified by their index into `nodes`, standing for the
distinct `*node` pointers of the Go code. -/
structure RubyHashRing where
  replicas : Nat
  sortedKeys : List Nat
  ring : Nat → Option Nat
  nodes : List (List Nat)

/-- Construction: `newRubyHashRing(configs, replicas)`. -/
def newRubyHashRing (configs : List (List Nat)) (replicas : Nat) : RubyHashRing :=
  let inserts := ringInserts configs replicas
  { replicas := replicas
    sortedKeys := sortKeys (inserts.map (fun e => e.1))
    ring := inserts.foldl (fun m e => updMap m e.1 e.2) (fun _ => none)
    nodes := configs }

/-- The value of `rubyHashRing.binarySearch`'s loop variable `upper` when
the loop exits: the first index whose point exceeds `value` (or the list
length when none does). -/
def ubIndex (keys : List Nat) (value : Nat) : Nat :=
  goSearchLoop (keys.length + 1) (fun mid => decide (value < keys.getD mid 0)) 0 keys.length

/-- Lookup helper `rubyHashRing.binarySearch(value)`: the redis-rb style search.  The
loop computes the first index whose point exceeds `value` and the method
returns that minus one (`upper - 1`), i.e. the last index with point
`≤ value`, or `-1` if every point exceeds `value`. -/
def RubyHashRing.binarySearch (r : RubyHashRing) (value : Nat) : Int :=
  (ubIndex r.sortedKeys value : Int) - 1

/-- Lookup `rubyHashRing.getNode(key)`: CRC-32 the raw key, run `binarySearch`,
map `-1` to the final index, and look the selected point up in the table.
`none` models the `nil` node returned for an empty ring. -/
def RubyHashRing.getNode (r : RubyHashRing) (key : List Nat) : Option Nat :=
  if r.sortedKeys.length = 0 then none
  else
    let hash := crc32 key
    let idx : Int := r.binarySearch hash
    let idx : Int := if idx < 0 then (r.sortedKeys.length : Int) - 1 else idx
    r.ring (r.sortedKeys.getD idx.toNat 0)

/-- The shard name `getNode` resolves to (`node.name` in Go). -/
def RubyHashRing.getNodeName (r : RubyHashRing) (key : List Nat) : Option (List Nat) :=
  (r.getNode key).map (fun j => r.nodes.getD j [])

/-! ## The go-redis `ConsistentHash` override (`rubyStyleHash`) -/

/-- The `(point, shard name)` pairs inserted by `newRubyStyleHash`'s
nested loops, in insertion order. -/
def styleInserts (shards : List (List Nat)) (R : Nat) : List (Nat × List Nat) :=
  match shards with
  | [] => []
  | shard :: rest =>
    (List.range R).map (fun i => (serverHashFor (mkVirtualKey shard i), shard)) ++
      styleInserts rest R

/-- The `rubyStyleHash` value: replica count, ascending point list, and
the point → shard-name lookup table. -/
structure RubyStyleHash where
  replicas : Nat
  sortedKeys : List Nat
  ring : Nat → Option (List Nat)

/-- Construction: `newRubyStyleHash(shards, replicas)`. -/
def newRubyStyleHash (shards : List (List Nat)) (replicas : Nat) : RubyStyleHash :=
  let inserts := styleInserts shards replicas
  { replicas := replicas
    sortedKeys := sortKeys (inserts.map (fun e => e.1))
    ring := inserts.foldl (fun m e => updMap m e.1 e.2) (fun _ => none) }

/-- The result of `sort.Search(len, f)` with `f(i) = sortedKeys[i] >= hash`:
the standard lower-bound index. -/
def lbIndex (keys : List Nat) (hash : Nat) : Nat :=
  sortSearch keys.length (fun i => decide (hash ≤ keys.getD i 0))

/-- Lookup `rubyStyleHash.Get(key)`: CRC-32 the key, `sort.Search` for the first
point `≥ hash`, wrap `len` to `0`, and look the point up; `[]` models the
empty string Go returns when the ring is empty (or on a map miss). -/
def RubyStyleHash.Get (h : RubyStyleHash) (key : List Nat) : List Nat :=
  if h.sortedKeys.length = 0 then []
  else
    let hash := crc32 key
    let idx := lbIndex h.sortedKeys hash
    let idx := if idx = h.sortedKeys.length then 0 else idx
    (h.ring (h.sortedKeys.getD idx 0)).getD []

/-! ## The spec's stated lookup rule -/

/-- Modelled from the spec: the point the spec's lookup step selects — the
smallest stored point that is `≥ h` ("standard lower-bound search"), and,
when no such point exists, the first point of the ascending list
("wrap around to the first point in the list (index 0)"). -/
def specLowerBoundPoint (keys : List Nat) (h : Nat) : Nat :=
  match keys.filter (fun p => decide (h ≤ p)) with
  | [] => keys.headD 0
  | p :: _ => p

/-- Modelled from the spec: `resolve` as the spec states it, over the same
ring state as the code's `getNode`. -/
def specResolve (r : RubyHashRing) (key : List Nat) : Option Nat :=
  if r.sortedKeys.length = 0 then none
  else r.ring (specLowerBoundPoint r.sortedKeys (crc32 key))

/-! ## Invariants of the binary-search loop -/

theorem goSearchLoop_lo_le (f : Nat → Bool) :
    ∀ (fuel lo hi : Nat), lo ≤ goSearchLoop fuel f lo hi := by
  intro fuel
  induction fuel with
  | zero => intro lo hi; exact Nat.le_refl lo
  | succ fuel ih =>
    intro lo hi
    simp only [goSearchLoop]
    split
    · split
      · exact ih lo ((lo + hi) / 2)
      · exact Nat.le_trans (by omega) (ih ((lo + hi) / 2 + 1) hi)
    · exact Nat.le_refl lo

theorem goSearchLoop_le_hi (f : Nat → Bool) :
    ∀ (fuel lo hi : Nat), hi - lo < fuel → lo ≤ hi →
      goSearchLoop fuel f lo hi ≤ hi := by
  intro fuel
  induction fuel with
  | zero => intro lo hi hfuel _; omega
  | succ fuel ih =>
    intro lo hi hfuel hlh
    simp only [goSearchLoop]
    split
    · rename_i hlt
      split
      · exact Nat.le_trans (ih lo ((lo + hi) / 2) (by omega) (by omega)) (by omega)
      · exact ih ((lo + hi) / 2 + 1) hi (by omega) (by omega)
    · exact hlh

/-- Every index left of the loop's result fails the predicate, provided
the predicate is monotone below `n` and the search range stays below `n`. -/
theorem goSearchLoop_not_before (f : Nat → Bool) (n : Nat)
    (hmono : ∀ a b, a ≤ b → b < n → f a = true → f b = true) :
    ∀ (fuel lo hi : Nat), hi ≤ n → ∀ k, lo ≤ k →
      k < goSearchLoop fuel f lo hi → f k = false := by
  intro fuel
  induction fuel with
  | zero =>
    intro lo hi _ k hk hk'
    simp only [goSearchLoop] at hk'
    omega
  | succ fuel ih =>
    intro lo hi hn k hk hk'
    simp only [goSearchLoop] at hk'
    by_cases hlt : lo < hi
    · rw [if_pos hlt] at hk'
      by_cases hmid : f ((lo + hi) / 2) = true
      · rw [if_pos hmid] at hk'
        exact ih lo ((lo + hi) / 2) (by omega) k hk hk'
      · rw [if_neg hmid] at hk'
        by_cases hkm : k ≤ (lo + hi) / 2
        · cases hfk : f k with
          | false => rfl
          | true =>
            exact absurd (hmono k ((lo + hi) / 2) hkm (by omega) hfk)
              (by simpa using hmid)
        · exact ih ((lo + hi) / 2 + 1) hi hn k (by omega) hk'
    · rw [if_neg hlt] at hk'
      omega

/-- When the loop's result lies strictly inside the range, the predicate
holds there. -/
theorem goSearchLoop_at (f : Nat → Bool) :
    ∀ (fuel lo hi : Nat), hi - lo < fuel →
      goSearchLoop fuel f lo hi < hi → f (goSearchLoop fuel f lo hi) = true := by
  intro fuel
  induction fuel with
  | zero => intro lo hi hfuel _; omega
  | succ fuel ih =>
    intro lo hi hfuel hres
    simp only [goSearchLoop] at hres ⊢
    by_cases hlt : lo < hi
    · rw [if_pos hlt] at hres ⊢
      by_cases hmid : f ((lo + hi) / 2) = true
      · rw [if_pos hmid] at hres ⊢
        have hle : goSearchLoop fuel f lo ((lo + hi) / 2) ≤ (lo + hi) / 2 :=
          goSearchLoop_le_hi f fuel lo ((lo + hi) / 2) (by omega) (by omega)
        rcases Nat.lt_or_ge (goSearchLoop fuel f lo ((lo + hi) / 2)) ((lo + hi) / 2)
          with hcase | hcase
        · exact ih lo ((lo + hi) / 2) (by omega) hcase
        · have : goSearchLoop fuel f lo ((lo + hi) / 2) = (lo + hi) / 2 := by omega
          rw [this]; exact hmid
      · rw [if_neg hmid] at hres ⊢
        exact ih ((lo + hi) / 2 + 1) hi (by omega) hres
    · rw [if_neg hlt] at hres
      omega

/-! ## Facts about sorted point lists -/

theorem getD_mem_of_lt {keys : List Nat} {i : Nat} (h : i < keys.length) :
    keys.getD i 0 ∈ keys := by
  rw [List.getD_eq_getElem keys 0 h]
  exact List.getElem_mem h

theorem sorted_getD_mono {keys : List Nat} (hs : List.Sorted (· ≤ ·) keys)
    {i j : Nat} (hij : i ≤ j) (hj : j < keys.length) :
    keys.getD i 0 ≤ keys.getD j 0 := by
  rcases Nat.eq_or_lt_of_le hij with heq | hlt
  · rw [heq]
  · rw [List.getD_eq_getElem keys 0 (by omega), List.getD_eq_getElem keys 0 hj]
    exact List.pairwise_iff_getElem.mp hs i j (by omega) hj hlt

theorem mem_iff_getD {keys : List Nat} {x : Nat} :
    x ∈ keys ↔ ∃ i, i < keys.length ∧ keys.getD i 0 = x := by
  constructor
  · intro hx
    rcases List.mem_iff_getElem.mp hx with ⟨i, hi, hval⟩
    exact ⟨i, hi, by rw [List.getD_eq_getElem keys 0 hi]; exact hval⟩
  · rintro ⟨i, hi, hval⟩
    rw [← hval]
    exact getD_mem_of_lt hi

/-! ## Consequences for `ubIndex` and `lbIndex` over a sorted list -/

theorem ubIndex_le (keys : List Nat) (v : Nat) : ubIndex keys v ≤ keys.length :=
  goSearchLoop_le_hi _ _ _ _ (by omega) (Nat.zero_le _)

theorem ubIndex_not_gt {keys : List Nat} (hs : List.Sorted (· ≤ ·) keys) (v : Nat)
    {k : Nat} (hk : k < ubIndex keys v) : keys.getD k 0 ≤ v := by
  have hmono : ∀ a b, a ≤ b → b < keys.length →
      (decide (v < keys.getD a 0) = true) → (decide (v < keys.getD b 0) = true) := by
    intro a b hab hb ha
    simp only [decide_eq_true_eq] at ha ⊢
    exact Nat.lt_of_lt_of_le ha (sorted_getD_mono hs hab hb)
  have := goSearchLoop_not_before _ keys.length hmono (keys.length + 1) 0 keys.length
    (Nat.le_refl _) k (Nat.zero_le _) hk
  simpa using this

theorem ubIndex_gt {keys : List Nat} (v : Nat)
    (h : ubIndex keys v < keys.length) : v < keys.getD (ubIndex keys v) 0 := by
  have := goSearchLoop_at (fun mid => decide (v < keys.getD mid 0))
    (keys.length + 1) 0 keys.length (by omega) h
  simpa [ubIndex] using this

theorem lbIndex_le (keys : List Nat) (h : Nat) : lbIndex keys h ≤ keys.length :=
  goSearchLoop_le_hi _ _ _ _ (by omega) (Nat.zero_le _)

theorem lbIndex_not_ge {keys : List Nat} (hs : List.Sorted (· ≤ ·) keys) (h : Nat)
    {k : Nat} (hk : k < lbIndex keys h) : keys.getD k 0 < h := by
  have hmono : ∀ a b, a ≤ b → b < keys.length →
      (decide (h ≤ keys.getD a 0) = true) → (decide (h ≤ keys.getD b 0) = true) := by
    intro a b hab hb ha
    simp only [decide_eq_true_eq] at ha ⊢
    exact Nat.le_trans ha (sorted_getD_mono hs hab hb)
  have := goSearchLoop_not_before _ keys.length hmono (keys.length + 1) 0 keys.length
    (Nat.le_refl _) k (Nat.zero_le _) hk
  simpa using this

theorem lbIndex_ge {keys : List Nat} (h : Nat)
    (hlt : lbIndex keys h < keys.length) : h ≤ keys.getD (lbIndex keys h) 0 := by
  have := goSearchLoop_at (fun i => decide (h ≤ keys.getD i 0))
    (keys.length + 1) 0 keys.length (by omega) hlt
  simpa [lbIndex, sortSearch] using this

/-- When every stored point is below the probed value, the upper-bound
loop runs off the end of the list. -/
theorem ubIndex_of_all_lt {keys : List Nat} {v : Nat}
    (hall : ∀ p ∈ keys, p < v) : ubIndex keys v = keys.length := by
  rcases Nat.lt_or_ge (ubIndex keys v) keys.length with hlt | hge
  · have h1 := ubIndex_gt v hlt
    have h2 := hall _ (getD_mem_of_lt hlt)
    omega
  · exact Nat.le_antisymm (ubIndex_le keys v) hge

/-- When every stored point is below the probed hash, `sort.Search`
returns the list length. -/
theorem lbIndex_of_all_lt {keys : List Nat} {h : Nat}
    (hall : ∀ p ∈ keys, p < h) : lbIndex keys h = keys.length := by
  rcases Nat.lt_or_ge (lbIndex keys h) keys.length with hlt | hge
  · have h1 := lbIndex_ge h hlt
    have h2 := hall _ (getD_mem_of_lt hlt)
    omega
  · exact Nat.le_antisymm (lbIndex_le keys h) hge

/-- When the probed value is itself a stored point, `binarySearch`'s loop
exits just past an occurrence of it. -/
theorem ubIndex_of_mem {keys : List Nat} (hs : List.Sorted (· ≤ ·) keys)
    {h : Nat} (hm : h ∈ keys) :
    1 ≤ ubIndex keys h ∧ keys.getD (ubIndex keys h - 1) 0 = h := by
  rcases mem_iff_getD.mp hm with ⟨t, ht, hval⟩
  have htf : t < ubIndex keys h := by
    rcases Nat.lt_or_ge t (ubIndex keys h) with hc | hc
    · exact hc
    · exfalso
      have hub : ubIndex keys h < keys.length := Nat.lt_of_le_of_lt hc ht
      have h1 := ubIndex_gt h hub
      have h2 := sorted_getD_mono hs hc ht
      omega
  refine ⟨by omega, ?_⟩
  have hle := ubIndex_le keys h
  have hlow : keys.getD (ubIndex keys h - 1) 0 ≤ h := ubIndex_not_gt hs h (by omega)
  have hhigh : keys.getD t 0 ≤ keys.getD (ubIndex keys h - 1) 0 :=
    sorted_getD_mono hs (by omega) (by omega)
  omega

/-- When the probed hash is itself a stored point, `sort.Search` lands on
an occurrence of it. -/
theorem lbIndex_of_mem {keys : List Nat} (hs : List.Sorted (· ≤ ·) keys)
    {h : Nat} (hm : h ∈ keys) :
    lbIndex keys h < keys.length ∧ keys.getD (lbIndex keys h) 0 = h := by
  rcases mem_iff_getD.mp hm with ⟨t, ht, hval⟩
  have htf : lbIndex keys h ≤ t := by
    rcases Nat.lt_or_ge t (lbIndex keys h) with hc | hc
    · exfalso
      have := lbIndex_not_ge hs h hc
      omega
    · exact hc
  have hlb : lbIndex keys h < keys.length := Nat.lt_of_le_of_lt htf ht
  refine ⟨hlb, ?_⟩
  have h1 := lbIndex_ge h hlb
  have h2 : keys.getD (lbIndex keys h) 0 ≤ keys.getD t 0 := sorted_getD_mono hs htf ht
  omega

/-! ## Go map semantics: folded `updMap` insertions -/

theorem foldl_updMap_preserve {α : Type} :
    ∀ (l : List (Nat × α)) (m : Nat → Option α) (x : Nat), m x ≠ none →
      (l.foldl (fun m e => updMap m e.1 e.2) m) x ≠ none := by
  intro l
  induction l with
  | nil => intro m x hx; exact hx
  | cons e t ih =>
    intro m x hx
    refine ih _ x ?_
    simp only [updMap]
    split
    · exact Option.some_ne_none _
    · exact hx

theorem foldl_updMap_mem {α : Type} :
    ∀ (l : List (Nat × α)) (m : Nat → Option α) (x : Nat),
      x ∈ l.map (fun e => e.1) →
      (l.foldl (fun m e => updMap m e.1 e.2) m) x ≠ none := by
  intro l
  induction l with
  | nil => intro m x hx; simp at hx
  | cons e t ih =>
    intro m x hx
    rw [List.map_cons, List.mem_cons] at hx
    rcases hx with heq | hmem
    · refine foldl_updMap_preserve t _ x ?_
      simp [updMap, heq]
    · exact ih _ x hmem

theorem foldl_updMap_not_mem {α : Type} :
    ∀ (l : List (Nat × α)) (m : Nat → Option α) (x : Nat),
      x ∉ l.map (fun e => e.1) →
      (l.foldl (fun m e => updMap m e.1 e.2) m) x = m x := by
  intro l
  induction l with
  | nil => intro m x _; rfl
  | cons e t ih =>
    intro m x hx
    have hne : x ≠ e.1 := by
      intro h; exact hx (by simp [h])
    have hrest : x ∉ t.map (fun e => e.1) := by
      intro h; exact hx (by simp [h])
    rw [List.foldl_cons, ih _ x hrest]
    simp [updMap, hne]

/-- The folded Go map sends `x` to the value of the last insertion whose
key is `x`: the entry at index `b`, provided no later entry carries `x`. -/
theorem foldl_updMap_last :
    ∀ (l : List (Nat × Nat)) (m : Nat → Option Nat) (x b : Nat),
      b < l.length → (l.getD b (0, 0)).1 = x →
      (∀ c, b < c → c < l.length → (l.getD c (0, 0)).1 ≠ x) →
      (l.foldl (fun m e => updMap m e.1 e.2) m) x = some (l.getD b (0, 0)).2 := by
  intro l
  induction l with
  | nil => intro m x b hb; simp at hb
  | cons e t ih =>
    intro m x b hb hxb hlast
    cases b with
    | zero =>
      have hnotin : x ∉ t.map (fun e => e.1) := by
        intro hmem
        rcases List.mem_map.mp hmem with ⟨a, ha, hax⟩
        rcases List.mem_iff_getElem.mp ha with ⟨c, hc, hca⟩
        refine hlast (c + 1) (Nat.zero_lt_succ c)
          (by simp only [List.length_cons]; omega) ?_
        rw [List.getD_cons_succ, List.getD_eq_getElem t (0, 0) hc, hca]
        exact hax
      rw [List.foldl_cons, foldl_updMap_not_mem t _ x hnotin]
      rw [List.getD_cons_zero] at hxb ⊢
      simp [updMap, hxb]
    | succ b =>
      rw [List.foldl_cons]
      rw [List.getD_cons_succ] at hxb ⊢
      have hbt : b < t.length := by
        simp only [List.length_cons] at hb; omega
      refine ih _ x b hbt hxb (fun c hc1 hc2 => ?_)
      have := hlast (c + 1) (by omega) (by simp only [List.length_cons]; omega)
      rw [List.getD_cons_succ] at this
      exact this

/-- Folding map updates over entries with mapped values equals mapping the
result of folding over the original entries. -/
theorem foldl_updMap_map {α β : Type} (g : α → β) :
    ∀ (l : List (Nat × α)) (m : Nat → Option α) (x : Nat),
      ((l.map (fun e => (e.1, g e.2))).foldl (fun m e => updMap m e.1 e.2)
          (fun y => (m y).map g)) x
        = ((l.foldl (fun m e => updMap m e.1 e.2) m) x).map g := by
  intro l
  induction l with
  | nil => intro m x; rfl
  | cons e t ih =>
    intro m x
    rw [List.map_cons, List.foldl_cons, List.foldl_cons]
    have hupd : updMap (fun y => (m y).map g) e.1 (g e.2)
        = fun y => ((updMap m e.1 e.2) y).map g := by
      funext y
      simp only [updMap]
      split <;> rfl
    rw [hupd]
    exact ih _ x

/-! ## Construction facts -/

theorem ringInsertsAux_length (R : Nat) :
    ∀ (configs : List (List Nat)) (j : Nat),
      (ringInsertsAux configs j R).length = configs.length * R := by
  intro configs
  induction configs with
  | nil => intro j; simp [ringInsertsAux]
  | cons name rest ih =>
    intro j
    simp only [ringInsertsAux, List.length_append, List.length_map,
      List.length_range, ih, List.length_cons]
    rw [Nat.succ_mul]
    omega

/-- The two constructions insert the same points in the same order. -/
theorem styleInserts_map_fst (R : Nat) :
    ∀ (names : List (List Nat)) (j : Nat),
      (ringInsertsAux names j R).map (fun e => e.1)
        = (styleInserts names R).map (fun e => e.1) := by
  intro names
  induction names with
  | nil => intro j; rfl
  | cons name rest ih =>
    intro j
    simp only [ringInsertsAux, styleInserts, List.map_append, List.map_map]
    rw [ih (j + 1)]
    simp [Function.comp]

/-- Replacing each inserted node index by the name at that index turns the
custom ring's insertions into the style ring's insertions. -/
theorem ringInsertsAux_map_name (R : Nat) (full : List (List Nat)) :
    ∀ (names : List (List Nat)) (j : Nat),
      (∀ k, k < names.length → full.getD (j + k) [] = names.getD k []) →
      (ringInsertsAux names j R).map (fun e => (e.1, full.getD e.2 []))
        = styleInserts names R := by
  intro names
  induction names with
  | nil => intro j _; rfl
  | cons name rest ih =>
    intro j hfull
    simp only [ringInsertsAux, styleInserts, List.map_append, List.map_map]
    have hname : full.getD j [] = name := by
      have := hfull 0 (by simp)
      simpa using this
    congr 1
    · apply List.map_congr_left
      intro i _
      simp only [Function.comp]
      rw [List.getD_eq_getElem?_getD] at hname
      simp [hname]
    · refine ih (j + 1) (fun k hk => ?_)
      have := hfull (k + 1) (by simp only [List.length_cons]; omega)
      rw [List.getD_cons_succ] at this
      rw [← this]
      congr 1
      omega

theorem sortKeys_sorted (l : List Nat) : List.Sorted (· ≤ ·) (sortKeys l) :=
  List.sorted_insertionSort _ l

theorem sortKeys_perm (l : List Nat) : (sortKeys l).Perm l :=
  List.perm_insertionSort _ l

theorem newRubyHashRing_sortedKeys (names : List (List Nat)) (R : Nat) :
    (newRubyHashRing names R).sortedKeys
      = sortKeys ((ringInserts names R).map (fun e => e.1)) := rfl

theorem newRubyHashRing_ring (names : List (List Nat)) (R : Nat) :
    (newRubyHashRing names R).ring
      = (ringInserts names R).foldl (fun m e => updMap m e.1 e.2) (fun _ => none) := rfl

theorem newRubyHashRing_sorted (names : List (List Nat)) (R : Nat) :
    List.Sorted (· ≤ ·) (newRubyHashRing names R).sortedKeys :=
  sortKeys_sorted _

theorem newRubyStyleHash_sortedKeys_eq (names : List (List Nat)) (R : Nat) :
    (newRubyStyleHash names R).sortedKeys = (newRubyHashRing names R).sortedKeys := by
  show sortKeys ((styleInserts names R).map (fun e => e.1))
      = sortKeys ((ringInsertsAux names 0 R).map (fun e => e.1))
  rw [styleInserts_map_fst R names 0]

/-- Every point present in the sorted point list has an entry in the
lookup table. -/
theorem ringMap_ne_none_of_mem (names : List (List Nat)) (R : Nat) {p : Nat}
    (hp : p ∈ (newRubyHashRing names R).sortedKeys) :
    (newRubyHashRing names R).ring p ≠ none := by
  have hp' : p ∈ (ringInserts names R).map (fun e => e.1) :=
    ((sortKeys_perm _).mem_iff).mp hp
  exact foldl_updMap_mem _ _ _ hp'

/-- The style table holds exactly the name of the node the custom table
holds, point for point. -/
theorem styleRing_eq (names : List (List Nat)) (R : Nat) (x : Nat) :
    (newRubyStyleHash names R).ring x
      = ((newRubyHashRing names R).ring x).map (fun j => names.getD j []) := by
  have hins : (ringInserts names R).map (fun e => (e.1, names.getD e.2 []))
      = styleInserts names R :=
    ringInsertsAux_map_name R names names 0 (fun k _ => by rw [Nat.zero_add])
  show ((styleInserts names R).foldl (fun m e => updMap m e.1 e.2) (fun _ => none)) x = _
  rw [← hins]
  exact foldl_updMap_map (fun j => names.getD j []) (ringInserts names R)
    (fun _ => none) x

/-- The point inserted for node index `j` and replica `i` sits at offset
`j * R + i` of the insertion sequence and hashes the virtual key of the
`j`-th name. -/
theorem ringInsertsAux_getElem (R i : Nat) (hi : i < R) :
    ∀ (names : List (List Nat)) (j0 j : Nat), j < names.length →
      (ringInsertsAux names j0 R)[j * R + i]? =
        some (serverHashFor (mkVirtualKey (names.getD j []) i), j0 + j) := by
  intro names
  induction names with
  | nil => intro j0 j hj; simp at hj
  | cons name rest ih =>
    intro j0 j hj
    cases j with
    | zero =>
      rw [ringInsertsAux, Nat.zero_mul, Nat.zero_add, List.getElem?_append]
      rw [if_pos (by simpa using hi)]
      simp [List.getElem?_range hi]
    | succ j =>
      rw [ringInsertsAux, List.getElem?_append]
      have hlen : ((List.range R).map
          (fun i => (serverHashFor (mkVirtualKey name i), j0))).length = R := by
        simp
      rw [hlen]
      rw [if_neg (by rw [Nat.succ_mul]; omega)]
      have hidx : (j + 1) * R + i - R = j * R + i := by
        rw [Nat.succ_mul]; omega
      rw [hidx, List.getD_cons_succ]
      have hrec := ih (j0 + 1) j (by simp only [List.length_cons] at hj; omega)
      rw [hrec]
      have : j0 + 1 + j = j0 + (j + 1) := by omega
      rw [this]

/-! ## Characterizing the two lookups -/

/-- The proposition that `q` is the point the redis-rb rule selects: the largest stored
point `≤ h`, or, when every stored point exceeds `h`, the largest stored
point overall. -/
def IsRubyPredPoint (keys : List Nat) (h q : Nat) : Prop :=
  q ∈ keys ∧
    ((q ≤ h ∧ ∀ p ∈ keys, p ≤ h → p ≤ q) ∨
      ((∀ p ∈ keys, h < p) ∧ ∀ p ∈ keys, p ≤ q))

/-- Unfolding `getNode` on a non-empty ring: the wrapping of
`binarySearch`'s `-1` result selects index `len - 1`, any other result
selects `upper - 1`. -/
theorem getNode_eq_ring (r : RubyHashRing) (key : List Nat)
    (hne : r.sortedKeys.length ≠ 0) :
    r.getNode key = r.ring (r.sortedKeys.getD
      (if ubIndex r.sortedKeys (crc32 key) = 0 then r.sortedKeys.length - 1
       else ubIndex r.sortedKeys (crc32 key) - 1) 0) := by
  rw [RubyHashRing.getNode]
  rw [if_neg hne]
  show r.ring (r.sortedKeys.getD (Int.toNat
    (if (ubIndex r.sortedKeys (crc32 key) : Int) - 1 < 0
     then (r.sortedKeys.length : Int) - 1
     else (ubIndex r.sortedKeys (crc32 key) : Int) - 1)) 0) = _
  rcases Nat.eq_zero_or_pos (ubIndex r.sortedKeys (crc32 key)) with h0 | hpos
  · rw [h0, if_pos (by omega), if_pos rfl]
    congr 1
    congr 1
    omega
  · rw [if_neg (by omega), if_neg (by omega)]
    congr 1
    congr 1
    omega

/-- Unfolding `Get` on a non-empty ring. -/
theorem Get_eq_ring (g : RubyStyleHash) (key : List Nat)
    (hne : g.sortedKeys.length ≠ 0) :
    g.Get key = (g.ring (g.sortedKeys.getD
      (if lbIndex g.sortedKeys (crc32 key) = g.sortedKeys.length then 0
       else lbIndex g.sortedKeys (crc32 key)) 0)).getD [] := by
  rw [RubyStyleHash.Get, if_neg hne]

/-- A list filters to its suffix from `m` on when the predicate fails
before `m` and holds from `m` on. -/
theorem filter_eq_drop (P : Nat → Bool) :
    ∀ (keys : List Nat) (m : Nat), m ≤ keys.length →
      (∀ i, i < m → P (keys.getD i 0) = false) →
      (∀ i, m ≤ i → i < keys.length → P (keys.getD i 0) = true) →
      keys.filter P = keys.drop m := by
  intro keys
  induction keys with
  | nil =>
    intro m hm _ _
    simp only [List.length_nil, Nat.le_zero] at hm
    simp [hm]
  | cons a t ih =>
    intro m hm hlow hhigh
    cases m with
    | zero =>
      rw [List.drop_zero]
      apply List.filter_eq_self.mpr
      intro x hx
      rcases List.mem_iff_getElem.mp hx with ⟨i, hi, hxi⟩
      have := hhigh i (Nat.zero_le i) hi
      rw [List.getD_eq_getElem _ 0 hi, hxi] at this
      exact this
    | succ m =>
      have hpa : P a = false := by
        have := hlow 0 (Nat.zero_lt_succ m)
        simpa using this
      rw [List.drop_succ_cons, List.filter_cons_of_neg (by simp [hpa])]
      refine ih m (by simpa using hm) (fun i hi => ?_) (fun i hmi hi => ?_)
      · have := hlow (i + 1) (by omega)
        rwa [List.getD_cons_succ] at this
      · have := hhigh (i + 1) (by omega) (by simp only [List.length_cons]; omega)
        rwa [List.getD_cons_succ] at this

/-- Over a sorted list the spec's "smallest point ≥ h, else first point"
is precisely the point `sort.Search`'s wrapped index selects. -/
theorem specLowerBoundPoint_eq {keys : List Nat} (hs : List.Sorted (· ≤ ·) keys)
    (h : Nat) :
    specLowerBoundPoint keys h
      = keys.getD (if lbIndex keys h = keys.length then 0 else lbIndex keys h) 0 := by
  have hfilter : keys.filter (fun p => decide (h ≤ p)) = keys.drop (lbIndex keys h) := by
    refine filter_eq_drop _ keys _ (lbIndex_le keys h) (fun i hi => ?_) (fun i hmi hi => ?_)
    · have := lbIndex_not_ge hs h hi
      simp only [decide_eq_false_iff_not]
      omega
    · have h1 := lbIndex_ge h (Nat.lt_of_le_of_lt hmi hi)
      have h2 := sorted_getD_mono hs hmi hi
      simp only [decide_eq_true_eq]
      omega
  unfold specLowerBoundPoint
  rw [hfilter]
  by_cases hlen : lbIndex keys h = keys.length
  · rw [hlen, List.drop_length, if_pos rfl]
    cases keys <;> simp
  · have hlb : lbIndex keys h < keys.length :=
      Nat.lt_of_le_of_ne (lbIndex_le keys h) hlen
    rw [if_neg hlen, List.drop_eq_getElem_cons hlb, List.getD_eq_getElem keys 0 hlb]

/-- On any sorted non-empty ring state, `getNode` resolves via the
redis-rb predecessor rule. -/
theorem getNode_pred_point (r : RubyHashRing) (key : List Nat)
    (hs : List.Sorted (· ≤ ·) r.sortedKeys) (hne : r.sortedKeys.length ≠ 0) :
    ∃ q, IsRubyPredPoint r.sortedKeys (crc32 key) q ∧ r.getNode key = r.ring q := by
  rcases Nat.eq_zero_or_pos (ubIndex r.sortedKeys (crc32 key)) with h0 | hpos
  · refine ⟨r.sortedKeys.getD (r.sortedKeys.length - 1) 0, ⟨getD_mem_of_lt (by omega), ?_⟩, ?_⟩
    · right
      have hP0 : crc32 key < r.sortedKeys.getD 0 0 := by
        have := @ubIndex_gt r.sortedKeys (crc32 key) (by omega)
        rwa [h0] at this
      constructor
      · intro p hp
        rcases mem_iff_getD.mp hp with ⟨i, hi, hvi⟩
        have := sorted_getD_mono hs (Nat.zero_le i) hi
        omega
      · intro p hp
        rcases mem_iff_getD.mp hp with ⟨i, hi, hvi⟩
        have := sorted_getD_mono hs (show i ≤ r.sortedKeys.length - 1 by omega) (by omega)
        omega
    · rw [getNode_eq_ring r key hne, if_pos h0]
  · have hle := ubIndex_le r.sortedKeys (crc32 key)
    refine ⟨r.sortedKeys.getD (ubIndex r.sortedKeys (crc32 key) - 1) 0,
      ⟨getD_mem_of_lt (by omega), ?_⟩, ?_⟩
    · left
      constructor
      · exact ubIndex_not_gt hs (crc32 key) (by omega)
      · intro p hp hple
        rcases mem_iff_getD.mp hp with ⟨i, hi, hvi⟩
        rcases Nat.lt_or_ge i (ubIndex r.sortedKeys (crc32 key)) with hcase | hcase
        · have := sorted_getD_mono hs
            (show i ≤ ubIndex r.sortedKeys (crc32 key) - 1 by omega) (by omega)
          omega
        · have hub_lt : ubIndex r.sortedKeys (crc32 key) < r.sortedKeys.length := by omega
          have h1 := ubIndex_gt (crc32 key) hub_lt
          have h2 := sorted_getD_mono hs hcase hi
          omega
    · rw [getNode_eq_ring r key hne, if_neg (by omega)]

theorem newRubyStyleHash_sorted (names : List (List Nat)) (R : Nat) :
    List.Sorted (· ≤ ·) (newRubyStyleHash names R).sortedKeys :=
  sortKeys_sorted _

/-! ## The claims -/

/-- Claim C1, counterexample: on the two-node ring built from names
`a`, `b` with one replica each, the key `s` (whose CRC-32 falls strictly
between the two stored points) is NOT resolved by `getNode` to the point a
lower-bound search selects: `getNode` picks the preceding point, the
spec's stated rule picks the following one. -/
theorem c1_counterexample :
    (newRubyHashRing [[97], [98]] 1).sortedKeys ≠ [] ∧
      (newRubyHashRing [[97], [98]] 1).getNode [115]
        ≠ specResolve (newRubyHashRing [[97], [98]] 1) [115] := by
  constructor
  · decide
  · decide

/-- Claim C1, amended: `rubyStyleHash.Get` resolves by the spec's
lower-bound rule (smallest stored point `≥ hash`, wrapping to the first
point), but `rubyHashRing.getNode` resolves by the redis-rb predecessor
rule: the LARGEST stored point `≤ hash`, falling back to the largest
stored point when every point exceeds the hash; it returns the node owning
that point. -/
theorem c1_amended_lookup_rules (r : RubyHashRing) (g : RubyStyleHash)
    (key : List Nat)
    (hr : List.Sorted (· ≤ ·) r.sortedKeys) (hrne : r.sortedKeys.length ≠ 0)
    (hg : List.Sorted (· ≤ ·) g.sortedKeys) (hgne : g.sortedKeys.length ≠ 0) :
    (∃ q, IsRubyPredPoint r.sortedKeys (crc32 key) q ∧ r.getNode key = r.ring q) ∧
      g.Get key = (g.ring (specLowerBoundPoint g.sortedKeys (crc32 key))).getD [] :=
  ⟨getNode_pred_point r key hr hrne,
    by rw [Get_eq_ring g key hgne, specLowerBoundPoint_eq hg]⟩

theorem c1_amended_lookup_rules_witness :
    (∃ q, IsRubyPredPoint (newRubyHashRing [[97], [98]] 1).sortedKeys (crc32 [115]) q ∧
        (newRubyHashRing [[97], [98]] 1).getNode [115]
          = (newRubyHashRing [[97], [98]] 1).ring q) ∧
      (newRubyStyleHash [[97], [98]] 1).Get [115]
        = ((newRubyStyleHash [[97], [98]] 1).ring
            (specLowerBoundPoint (newRubyStyleHash [[97], [98]] 1).sortedKeys
              (crc32 [115]))).getD [] :=
  c1_amended_lookup_rules (newRubyHashRing [[97], [98]] 1)
    (newRubyStyleHash [[97], [98]] 1) [115]
    (newRubyHashRing_sorted _ _) (by decide)
    (newRubyStyleHash_sorted _ _) (by decide)

/-- Claim C2, counterexample: on the ring built from names `a`, `b` with
one replica each, the key `a` has a CRC-32 hash strictly greater than both
stored points, the node owning the smallest point is node 0, yet `getNode`
does not return node 0 (it returns the node owning the largest point). -/
theorem c2_counterexample :
    (∀ p ∈ (newRubyHashRing [[97], [98]] 1).sortedKeys, p < crc32 [97]) ∧
      (newRubyHashRing [[97], [98]] 1).ring
          ((newRubyHashRing [[97], [98]] 1).sortedKeys.getD 0 0) = some 0 ∧
      (newRubyHashRing [[97], [98]] 1).getNode [97] ≠ some 0 := by
  refine ⟨by decide, by decide, by decide⟩

/-- Claim C2, amended: for a key whose CRC-32 hash strictly exceeds every
stored point of a non-empty ring, `rubyHashRing.getNode` returns the node
owning the LARGEST (last) point — the predecessor rule needs no wrap
there — and never `nil`; it is `rubyStyleHash.Get` that wraps to the node
owning the smallest (first) point. -/
theorem c2_amended_wrap (names : List (List Nat)) (R : Nat) (key : List Nat)
    (hne : (newRubyHashRing names R).sortedKeys.length ≠ 0)
    (hhigh : ∀ p ∈ (newRubyHashRing names R).sortedKeys, p < crc32 key) :
    (newRubyHashRing names R).getNode key
        = (newRubyHashRing names R).ring
            ((newRubyHashRing names R).sortedKeys.getD
              ((newRubyHashRing names R).sortedKeys.length - 1) 0) ∧
      (newRubyHashRing names R).getNode key ≠ none ∧
      (newRubyStyleHash names R).Get key
        = ((newRubyStyleHash names R).ring
            ((newRubyStyleHash names R).sortedKeys.getD 0 0)).getD [] := by
  have hub : ubIndex (newRubyHashRing names R).sortedKeys (crc32 key)
      = (newRubyHashRing names R).sortedKeys.length := ubIndex_of_all_lt hhigh
  refine ⟨?_, ?_, ?_⟩
  · rw [getNode_eq_ring _ _ hne, hub, if_neg hne]
  · rw [getNode_eq_ring _ _ hne, hub, if_neg hne]
    exact ringMap_ne_none_of_mem names R (getD_mem_of_lt (by omega))
  · have hgne : (newRubyStyleHash names R).sortedKeys.length ≠ 0 := by
      rw [newRubyStyleHash_sortedKeys_eq]; exact hne
    have hhigh' : ∀ p ∈ (newRubyStyleHash names R).sortedKeys, p < crc32 key := by
      rw [newRubyStyleHash_sortedKeys_eq]; exact hhigh
    rw [Get_eq_ring _ _ hgne, lbIndex_of_all_lt hhigh', if_pos rfl]

theorem c2_amended_wrap_witness :
    (newRubyHashRing [[97], [98]] 1).getNode [97]
        = (newRubyHashRing [[97], [98]] 1).ring
            ((newRubyHashRing [[97], [98]] 1).sortedKeys.getD
              ((newRubyHashRing [[97], [98]] 1).sortedKeys.length - 1) 0) ∧
      (newRubyHashRing [[97], [98]] 1).getNode [97] ≠ none ∧
      (newRubyStyleHash [[97], [98]] 1).Get [97]
        = ((newRubyStyleHash [[97], [98]] 1).ring
            ((newRubyStyleHash [[97], [98]] 1).sortedKeys.getD 0 0)).getD [] :=
  c2_amended_wrap [[97], [98]] 1 [97] (by decide) (by decide)

/-- Claim C3: lookups on a ring holding zero points (for example one built
from an empty node list) return the explicit not-found result — `nil`
(`none`) from `getNode`, the empty string from `Get` — for every key, with
no out-of-range access (the embedding is total). -/
theorem c3_empty_ring_not_found (r : RubyHashRing) (g : RubyStyleHash)
    (key : List Nat) (hr : r.sortedKeys = []) (hg : g.sortedKeys = []) :
    r.getNode key = none ∧ r.getNodeName key = none ∧ g.Get key = [] := by
  refine ⟨?_, ?_, ?_⟩
  · rw [RubyHashRing.getNode, if_pos (by rw [hr]; rfl)]
  · rw [RubyHashRing.getNodeName, RubyHashRing.getNode, if_pos (by rw [hr]; rfl)]
    rfl
  · rw [RubyStyleHash.Get, if_pos (by rw [hg]; rfl)]

theorem c3_empty_ring_not_found_witness :
    (newRubyHashRing [] 160).getNode [107] = none ∧
      (newRubyHashRing [] 160).getNodeName [107] = none ∧
      (newRubyStyleHash [] 160).Get [107] = [] :=
  c3_empty_ring_not_found (newRubyHashRing [] 160) (newRubyStyleHash [] 160)
    [107] rfl rfl

/-- Claim C4: the construction's insertion at offset `j * R + i` hashes
exactly the virtual key `name ++ ":" ++ decimal i` and stores as its point
the big-endian 32-bit integer formed from the first four bytes of the MD5
digest of that virtual key (`serverHash`), mapped to node `j`. -/
theorem c4_server_hash_construction (names : List (List Nat)) (R j i : Nat)
    (hj : j < names.length) (hi : i < R) :
    (ringInserts names R)[j * R + i]?
      = some (beUint32 ((md5Bytes (names.getD j [] ++ 58 :: asciiDec i)).take 4), j) := by
  rw [ringInserts, ringInsertsAux_getElem R i hi names 0 j hj]
  simp [serverHashFor, mkVirtualKey]

theorem c4_server_hash_construction_witness :
    (ringInserts [[97]] 1)[0 * 1 + 0]?
      = some (beUint32 ((md5Bytes ([[97]].getD 0 [] ++ 58 :: asciiDec 0)).take 4), 0) :=
  c4_server_hash_construction [[97]] 1 0 0 (by decide) (by decide)

/-- Claim C5: both lookups hash the raw bytes of the key with CRC-32 and
nothing else — two keys with equal CRC-32 (braces and all other bytes
taken literally) resolve identically on every ring state. -/
theorem c5_crc32_only (r : RubyHashRing) (g : RubyStyleHash) (k1 k2 : List Nat)
    (h : crc32 k1 = crc32 k2) :
    r.getNode k1 = r.getNode k2 ∧ r.getNodeName k1 = r.getNodeName k2 ∧
      g.Get k1 = g.Get k2 := by
  refine ⟨?_, ?_, ?_⟩ <;>
    simp [RubyHashRing.getNode, RubyHashRing.getNodeName, RubyStyleHash.Get, h]

theorem c5_crc32_only_witness :
    crc32 [55, 98, 56, 100, 99, 99] = crc32 [50, 48, 48, 52, 56, 48, 48] ∧
      [55, 98, 56, 100, 99, 99] ≠ [50, 48, 48, 52, 56, 48, 48] ∧
      (newRubyHashRing [[97], [98]] 1).getNode [55, 98, 56, 100, 99, 99]
        = (newRubyHashRing [[97], [98]] 1).getNode [50, 48, 48, 52, 56, 48, 48] :=
  ⟨by decide, by decide,
    (c5_crc32_only (newRubyHashRing [[97], [98]] 1) (newRubyStyleHash [[97], [98]] 1)
      [55, 98, 56, 100, 99, 99] [50, 48, 48, 52, 56, 48, 48] (by decide)).1⟩

/-- Claim C6: construction from a non-empty node list with `R ≥ 1`
replicas yields, in both implementations, a point list of exactly
`R × len(nodes)` entries (collisions are kept, nothing is deduplicated)
sorted in ascending order. -/
theorem c6_point_count_sorted (names : List (List Nat)) (R : Nat)
    (h1 : names ≠ []) (h2 : 1 ≤ R) :
    (newRubyHashRing names R).sortedKeys.length = R * names.length ∧
      List.Sorted (· ≤ ·) (newRubyHashRing names R).sortedKeys ∧
      (newRubyStyleHash names R).sortedKeys.length = R * names.length ∧
      List.Sorted (· ≤ ·) (newRubyStyleHash names R).sortedKeys := by
  have hlen : (newRubyHashRing names R).sortedKeys.length = R * names.length := by
    rw [newRubyHashRing_sortedKeys, (sortKeys_perm _).length_eq, List.length_map,
      ringInserts, ringInsertsAux_length]
    exact Nat.mul_comm _ _
  refine ⟨hlen, newRubyHashRing_sorted _ _, ?_, newRubyStyleHash_sorted _ _⟩
  rw [newRubyStyleHash_sortedKeys_eq]
  exact hlen

theorem c6_point_count_sorted_witness :
    (newRubyHashRing [[97], [98]] 2).sortedKeys.length = 2 * [[97], [98]].length ∧
      List.Sorted (· ≤ ·) (newRubyHashRing [[97], [98]] 2).sortedKeys ∧
      (newRubyStyleHash [[97], [98]] 2).sortedKeys.length = 2 * [[97], [98]].length ∧
      List.Sorted (· ≤ ·) (newRubyStyleHash [[97], [98]] 2).sortedKeys :=
  c6_point_count_sorted [[97], [98]] 2 (by decide) (by decide)

/-- Claim C7, counterexample: `newRubyHashRing` does not fail on
`replicas = 0`: it returns a ring with zero points whose `getNode`
answers `nil` (not found) — there is no error path at all. -/
theorem c7_counterexample :
    (newRubyHashRing [[97]] 0).sortedKeys = [] ∧
      (newRubyHashRing [[97]] 0).getNode [107] = none := by
  refine ⟨by decide, by decide⟩

/-- Claim C7, amended: construction never fails for any input — there is
no error return.  A non-positive replica count is accepted and yields a
ring with zero points whose lookup returns the not-found result for every
key, exactly as an empty node list does. -/
theorem c7_amended_construction_total (names : List (List Nat)) (R : Nat)
    (key : List Nat) :
    (newRubyHashRing names 0).sortedKeys = [] ∧
      (newRubyHashRing names 0).getNode key = none ∧
      (newRubyHashRing [] R).getNode key = none ∧
      (newRubyStyleHash [] R).Get key = [] := by
  have hins : ∀ (ns : List (List Nat)) (j : Nat), ringInsertsAux ns j 0 = [] := by
    intro ns
    induction ns with
    | nil => intro j; rfl
    | cons n t ih => intro j; simp [ringInsertsAux, ih]
  have hkeys : (newRubyHashRing names 0).sortedKeys = [] := by
    rw [newRubyHashRing_sortedKeys, ringInserts, hins]
    rfl
  refine ⟨hkeys, ?_, ?_, ?_⟩
  · rw [RubyHashRing.getNode, if_pos (by rw [hkeys]; rfl)]
  · rw [RubyHashRing.getNode,
      if_pos (show (newRubyHashRing [] R).sortedKeys.length = 0 from rfl)]
  · rw [RubyStyleHash.Get,
      if_pos (show (newRubyStyleHash [] R).sortedKeys.length = 0 from rfl)]

/-- Claim C8: when the same 32-bit point is produced twice during
construction, the lookup table afterwards maps that point to the node of
the LAST insertion in construction order (Go map assignment silently
overwrites), and the point still appears in the sorted point list, so
sorting does not alter that ownership. -/
theorem c8_collision_last_wins (names : List (List Nat)) (R x b : Nat)
    (hb : b < (ringInserts names R).length)
    (hxb : ((ringInserts names R).getD b (0, 0)).1 = x)
    (hlast : ∀ c, b < c → c < (ringInserts names R).length →
      ((ringInserts names R).getD c (0, 0)).1 ≠ x) :
    (newRubyHashRing names R).ring x
        = some ((ringInserts names R).getD b (0, 0)).2 ∧
      x ∈ (newRubyHashRing names R).sortedKeys := by
  constructor
  · rw [newRubyHashRing_ring]
    exact foldl_updMap_last _ _ x b hb hxb hlast
  · rw [newRubyHashRing_sortedKeys, (sortKeys_perm _).mem_iff, ← hxb]
    exact List.mem_map_of_mem _ (by
      rw [List.getD_eq_getElem _ _ hb]
      exact List.getElem_mem hb)

theorem c8_collision_last_wins_witness :
    (newRubyHashRing [[97], [97]] 1).ring ((ringInserts [[97], [97]] 1).getD 1 (0, 0)).1
        = some ((ringInserts [[97], [97]] 1).getD 1 (0, 0)).2 ∧
      ((ringInserts [[97], [97]] 1).getD 1 (0, 0)).1
        ∈ (newRubyHashRing [[97], [97]] 1).sortedKeys :=
  c8_collision_last_wins [[97], [97]] 1
    ((ringInserts [[97], [97]] 1).getD 1 (0, 0)).1 1
    (by decide) rfl
    (fun c hc1 hc2 => by
      have hl : (ringInserts [[97], [97]] 1).length = 2 := by decide
      rw [hl] at hc2
      omega)

/-- Claim C9, counterexample: built from the same names `a`, `b` and the
same replica count, the two Go lookups do NOT agree on the key `s`:
`getNode` resolves it to `a` while `Get` resolves it to `b`. -/
theorem c9_counterexample :
    ¬ ((newRubyHashRing [[97], [98]] 1).getNodeName [115]
        = some ((newRubyStyleHash [[97], [98]] 1).Get [115])) := by
  decide

/-- Claim C9, amended: the two implementations implement different wrap
rules and disagree on keys falling strictly between points; they are
guaranteed to agree whenever the key's CRC-32 hash exactly equals a stored
point, where both select that point and the shared lookup table entry. -/
theorem c9_amended_agreement_on_points (names : List (List Nat)) (R : Nat)
    (key : List Nat)
    (hmem : crc32 key ∈ (newRubyHashRing names R).sortedKeys) :
    (newRubyHashRing names R).getNodeName key
      = some ((newRubyStyleHash names R).Get key) := by
  have hs := newRubyHashRing_sorted names R
  have hne : (newRubyHashRing names R).sortedKeys.length ≠ 0 := by
    intro h0
    rw [List.length_eq_zero] at h0
    rw [h0] at hmem
    simp at hmem
  have hub := ubIndex_of_mem hs hmem
  have hget : (newRubyHashRing names R).getNode key
      = (newRubyHashRing names R).ring (crc32 key) := by
    rw [getNode_eq_ring _ key hne, if_neg (by omega), hub.2]
  have hhit : (newRubyHashRing names R).ring (crc32 key) ≠ none :=
    ringMap_ne_none_of_mem names R hmem
  obtain ⟨j, hj⟩ : ∃ j, (newRubyHashRing names R).ring (crc32 key) = some j := by
    cases hcase : (newRubyHashRing names R).ring (crc32 key) with
    | none => exact absurd hcase hhit
    | some j => exact ⟨j, rfl⟩
  have hgs := newRubyStyleHash_sorted names R
  have hgne : (newRubyStyleHash names R).sortedKeys.length ≠ 0 := by
    rw [newRubyStyleHash_sortedKeys_eq]; exact hne
  have hmem' : crc32 key ∈ (newRubyStyleHash names R).sortedKeys := by
    rw [newRubyStyleHash_sortedKeys_eq]; exact hmem
  have hlb := lbIndex_of_mem hgs hmem'
  have hGet : (newRubyStyleHash names R).Get key
      = ((newRubyStyleHash names R).ring (crc32 key)).getD [] := by
    rw [Get_eq_ring _ _ hgne, if_neg (by omega), hlb.2]
  rw [RubyHashRing.getNodeName, hget, hj, hGet, styleRing_eq, hj]
  rfl

theorem c9_amended_agreement_on_points_witness :
    (newRubyHashRing [[97]] 1).getNodeName [247, 82, 189, 158]
      = some ((newRubyStyleHash [[97]] 1).Get [247, 82, 189, 158]) :=
  c9_amended_agreement_on_points [[97]] 1 [247, 82, 189, 158] (by decide)

/-- Claim C10: on a non-empty ring every index `getNode` uses is in
bounds — `binarySearch` returns a value in `[-1, len - 1]`, the wrap
adjustment yields an index in `[0, len - 1]` — and every element of the
sorted point list is a key of the lookup table, so the final map access
always yields a node and `getNode` returns `some`. -/
theorem c10_lookup_safety (names : List (List Nat)) (R : Nat) (key : List Nat)
    (hne : (newRubyHashRing names R).sortedKeys.length ≠ 0) :
    (-1 : Int) ≤ (newRubyHashRing names R).binarySearch (crc32 key) ∧
      (newRubyHashRing names R).binarySearch (crc32 key)
        < ((newRubyHashRing names R).sortedKeys.length : Int) ∧
      (0 : Int) ≤ (if (newRubyHashRing names R).binarySearch (crc32 key) < 0
          then ((newRubyHashRing names R).sortedKeys.length : Int) - 1
          else (newRubyHashRing names R).binarySearch (crc32 key)) ∧
      (if (newRubyHashRing names R).binarySearch (crc32 key) < 0
          then ((newRubyHashRing names R).sortedKeys.length : Int) - 1
          else (newRubyHashRing names R).binarySearch (crc32 key))
        < ((newRubyHashRing names R).sortedKeys.length : Int) ∧
      (∀ p ∈ (newRubyHashRing names R).sortedKeys,
        (newRubyHashRing names R).ring p ≠ none) ∧
      ((newRubyHashRing names R).getNode key).isSome := by
  have hfle := ubIndex_le (newRubyHashRing names R).sortedKeys (crc32 key)
  have hmap : ∀ p ∈ (newRubyHashRing names R).sortedKeys,
      (newRubyHashRing names R).ring p ≠ none :=
    fun p hp => ringMap_ne_none_of_mem names R hp
  refine ⟨?_, ?_, ?_, ?_, hmap, ?_⟩
  · simp only [RubyHashRing.binarySearch]; omega
  · simp only [RubyHashRing.binarySearch]; omega
  · simp only [RubyHashRing.binarySearch]; split <;> omega
  · simp only [RubyHashRing.binarySearch]; split <;> omega
  · rw [getNode_eq_ring _ _ hne]
    have hidx : (if ubIndex (newRubyHashRing names R).sortedKeys (crc32 key) = 0
        then (newRubyHashRing names R).sortedKeys.length - 1
        else ubIndex (newRubyHashRing names R).sortedKeys (crc32 key) - 1)
        < (newRubyHashRing names R).sortedKeys.length := by
      split <;> omega
    rw [Option.isSome_iff_ne_none]
    exact hmap _ (getD_mem_of_lt hidx)

theorem c10_lookup_safety_witness :
    (-1 : Int) ≤ (newRubyHashRing [[97]] 1).binarySearch (crc32 [107]) ∧
      (newRubyHashRing [[97]] 1).binarySearch (crc32 [107])
        < ((newRubyHashRing [[97]] 1).sortedKeys.length : Int) ∧
      (0 : Int) ≤ (if (newRubyHashRing [[97]] 1).binarySearch (crc32 [107]) < 0
          then ((newRubyHashRing [[97]] 1).sortedKeys.length : Int) - 1
          else (newRubyHashRing [[97]] 1).binarySearch (crc32 [107])) ∧
      (if (newRubyHashRing [[97]] 1).binarySearch (crc32 [107]) < 0
          then ((newRubyHashRing [[97]] 1).sortedKeys.length : Int) - 1
          else (newRubyHashRing [[97]] 1).binarySearch (crc32 [107]))
        < ((newRubyHashRing [[97]] 1).sortedKeys.length : Int) ∧
      (∀ p ∈ (newRubyHashRing [[97]] 1).sortedKeys,
        (newRubyHashRing [[97]] 1).ring p ≠ none) ∧
      ((newRubyHashRing [[97]] 1).getNode [107]).isSome :=
  c10_lookup_safety [[97]] 1 [107] (by decide)

end RingRouter
